import Mathlib

/-!
Verification of the archiver, upward-search and helper utilities of the
serverless-esbuild build-and-package core, together with spec-modelled
components (dependency resolver, build-context registry) whose
implementation is not part of the visible sources.

Paths are modelled as lists of name components (`List Nat`); the
filesystem is a flat association list from file paths to attributes
(content, permission mode, modification time).  Directories exist
implicitly: a path is a directory when it is a strict prefix of some
stored file path, which matches how `fs.stat` distinguishes files from
directories for the purposes of the archiver code.
-/

/-- A filesystem path, as a list of name components. -/
abbrev FPath := List Nat

/-- Content of a stored file. `bytes` is ordinary file content; `zipMarker`
models the file the zip writer creates at the destination path
(`complete = false` while partially written, `true` once finalized). -/
inductive FileData where
  | bytes (n : Nat)
  | zipMarker (complete : Bool)
deriving DecidableEq, Repr

/-- Attributes of a regular file: content, permission mode, mtime. -/
structure FileAttrs where
  data : FileData
  mode : Nat
  mtime : Nat
deriving DecidableEq, Repr

/-- A flat filesystem: association list from paths to file attributes. -/
abbrev Fsm := List (FPath × FileAttrs)

/-- Boolean path-prefix test (`isPre p q` iff `p` is a prefix of `q`). -/
def isPre : FPath → FPath → Bool
  | [], _ => true
  | _ :: _, [] => false
  | a :: as, b :: bs => if a = b then isPre as bs else false

/-- First-match association lookup on path-keyed association lists. -/
def lookupA {α : Type} : List (FPath × α) → FPath → Option α
  | [], _ => none
  | (q, a) :: rest, p => if q = p then some a else lookupA rest p

/-- First-match association lookup of a file path. -/
def lookupFile (fs : Fsm) (p : FPath) : Option FileAttrs := lookupA fs p

/-- Overwrite-insert of a file binding. -/
def setFile (fs : Fsm) (p : FPath) (a : FileAttrs) : Fsm :=
  (p, a) :: fs.filter (fun e => !(decide (e.1 = p)))

/-- A path is a directory when it is a strict prefix of some stored file. -/
def isDirPath (fs : Fsm) (p : FPath) : Bool :=
  fs.any (fun e => isPre p e.1 && !(decide (e.1 = p)))

/-- What `fs.stat` observes at a path, with volatile metadata (mtime)
projected away: a regular file with its content and mode, or a directory. -/
inductive StatView where
  | fileView (data : FileData) (mode : Nat)
  | dirView
deriving DecidableEq, Repr

/-- Stat at a path: a regular file wins over an implicit directory;
`none` models a stat failure (no such entry). -/
def statView (fs : Fsm) (p : FPath) : Option StatView :=
  match lookupFile fs p with
  | some a => some (.fileView a.data a.mode)
  | none => if isDirPath fs p then some .dirView else none

/-- Recursive copy of the files under `src` to below `dst`
(the directory branch of `fs-extra`'s `copy`); copied files get the
current time `tNow` as mtime. -/
def copyTree (tNow : Nat) (fs : Fsm) (src dst : FPath) : Fsm :=
  (fs.filter (fun e => isPre src e.1 && !(decide (e.1 = src)))).foldl
    (fun acc e => setFile acc (dst ++ e.1.drop src.length) ⟨e.2.data, e.2.mode, tNow⟩) fs

/-- Model of `FS.copy(file.rootPath, path.join(temp, file.localPath))`:
copies a regular file or, recursively, a directory; fails when the
source does not exist. -/
def fsCopy (tNow : Nat) (fs : Fsm) (src dst : FPath) : Option Fsm :=
  match statView fs src with
  | some (.fileView d m) => some (setFile fs dst ⟨d, m, tNow⟩)
  | some .dirView => some (copyTree tNow fs src dst)
  | none => none

/-- One file to archive: `rootPath` is the source location, `localPath`
the path inside the archive (mirrors the `IFile` interface). -/
structure IFile where
  localPath : FPath
  rootPath : FPath
deriving DecidableEq, Repr

/-- An ordered list of files to archive (mirrors `IFiles`). -/
abbrev IFiles := List IFile

/-- One entry handed to the zip codec by the internal writer: entry name,
stored mode, stored date and stored content.  The archive's bytes are a
function of this entry stream, so byte-level properties of the produced
archive are stated on it. -/
structure Entry where
  name : FPath
  mode : Nat
  date : Nat
  content : FileData
deriving DecidableEq, Repr

/-- The `fileModes` map of `nodeZip`: rootPath to recorded mode. -/
abbrev ModeMap := List (FPath × Nat)

/-- Lookup in the `fileModes` map (`fileModes.get`/`fileModes.has`). -/
def lookupMode (mm : ModeMap) (p : FPath) : Option Nat := lookupA mm p

/-- Overwrite-insert into the `fileModes` map (`fileModes.set`). -/
def setMode (mm : ModeMap) (p : FPath) (v : Nat) : ModeMap :=
  (p, v) :: mm.filter (fun e => !(decide (e.1 = p)))

/-- First phase of `nodeZip`: stat every file of the list and record the
mode of every non-directory under its `rootPath`; a failing stat rejects
the whole operation. -/
def collectModes (fs : Fsm) : IFiles → Option ModeMap
  | [] => some []
  | f :: rest =>
    match statView fs f.rootPath with
    | none => none
    | some .dirView => collectModes fs rest
    | some (.fileView _ m) => (collectModes fs rest).map (fun mm => setMode mm f.rootPath m)

/-- Second phase of `nodeZip`: for each file whose `rootPath` has a
recorded mode, append an entry named `localPath` whose content is read
from `rootPath` (not from the staged directory), whose mode is the
recorded mode, and whose date is pinned to epoch 0. -/
def appendEntries (fs : Fsm) (mm : ModeMap) : IFiles → Option (List Entry)
  | [] => some []
  | f :: rest =>
    match lookupMode mm f.rootPath with
    | none => appendEntries fs mm rest
    | some m =>
      match lookupFile fs f.rootPath with
      | none => none
      | some a => (appendEntries fs mm rest).map (fun es => ⟨f.localPath, m, 0, a.data⟩ :: es)

/-- The entry stream the internal writer `nodeZip` hands to the zip
codec, or `none` when the operation rejects. -/
def nodeZipEntries (fs : Fsm) (files : IFiles) : Option (List Entry) :=
  (collectModes fs files).bind (fun mm => appendEntries fs mm files)

example : nodeZipEntries [([0], ⟨.bytes 5, 7, 3⟩)] [⟨[1], [0]⟩] =
    some [⟨[1], 7, 0, .bytes 5⟩] := by decide

example : nodeZipEntries [([0, 1], ⟨.bytes 5, 7, 3⟩)] [⟨[2], [0]⟩] = some [] := by decide

/-- The full run of `nodeZip`: it first creates the write stream at
`zipPath` (so a file exists there from the start), computes the entry
stream, and finalizes the archive; `ioErr = true` injects a stream/codec
write error (the `zipArchive.on('error', reject)` path), on which the
partially written file is left at `zipPath` untouched. -/
def nodeZipRun (tNow : Nat) (ioErr : Bool) (fs : Fsm) (zipPath : FPath) (files : IFiles) :
    Option (List Entry) × Fsm :=
  let fs1 := setFile fs zipPath ⟨.zipMarker false, 0, tNow⟩
  match nodeZipEntries fs1 files with
  | none => (none, fs1)
  | some es =>
    if ioErr then (none, fs1)
    else (some es, setFile fs1 zipPath ⟨.zipMarker true, 0, tNow⟩)

/-- Modelled from the spec: the contents of the staged directory `root`,
re-rooted at the archive root — what the external native zip utility
(`bestzip`, invoked with `source: '*', cwd: temp`) archives.  The utility
itself is outside the repository; this follows the spec's contract that
the native strategy archives the staged directory. -/
def stagedListing (fs : Fsm) (root : FPath) : List Entry :=
  fs.filterMap (fun e =>
    if isPre root e.1 && !(decide (e.1 = root)) then
      some ⟨e.1.drop root.length, e.2.mode, 0, e.2.data⟩
    else none)

/-- Modelled from the spec: the run of the external native zip utility
over the staged directory; `ioErr = true` injects an external failure. -/
def bestzipRun (tNow : Nat) (ioErr : Bool) (fs : Fsm) (zipPath temp : FPath) :
    Option (List Entry) × Fsm :=
  if ioErr then (none, fs)
  else (some (stagedListing fs temp), setFile fs zipPath ⟨.zipMarker true, 0, tNow⟩)

/-- The staging phase of `zip`: copy every file of the list from its
`rootPath` to `temp ++ localPath`, sequentially, stopping at the first
failing copy; returns whether all copies succeeded together with the
filesystem after the attempted copies. -/
def copyPhase (tNow : Nat) (fs : Fsm) (temp : FPath) : IFiles → Bool × Fsm
  | [] => (true, fs)
  | f :: rest =>
    match fsCopy tNow fs f.rootPath (temp ++ f.localPath) with
    | none => (false, fs)
    | some fs' => copyPhase tNow fs' temp rest

/-- Removal of the scoped temporary directory: drops every path at or
below `root` (the finalizer of `makeTempPathScoped`, modelled from the
spec's scoped temp-directory lifecycle, since `utils/effect-fs` is not
among the visible sources). -/
def removeTree (fs : Fsm) (root : FPath) : Fsm :=
  fs.filter (fun e => !(isPre root e.1))

/-- Which phase of the zip operation failed. -/
inductive ZipErr where
  | copyErr
  | zipErr
deriving DecidableEq, Repr

/-- Outcome of the zip operation. -/
inductive ZipOutcome where
  | success
  | failure (e : ZipErr)
deriving DecidableEq, Repr

/-- Scope close after the zip phase: report the zip phase's outcome and
run the scope finalizer removing the temporary directory. -/
def zipStep (tempDir : FPath) (r : Option (List Entry) × Fsm) : ZipOutcome × Fsm :=
  match r with
  | (none, fs2) => (.failure .zipErr, removeTree fs2 tempDir)
  | (some _, fs2) => (.success, removeTree fs2 tempDir)

/-- The `zip` operation: stage every file into the scoped temporary
directory `tempDir`, then archive (natively over the staged directory,
or with the internal writer `nodeZip`, which is handed the original
`filesPathList`); the scope's finalizer removes the temporary directory
on every exit path, as the `Effect.scoped` combinator guarantees.
`makePath(path.dirname(zipPath))` is a no-op here because directories
are implicit in this filesystem model. -/
def zipOp (tNow : Nat) (ioErr : Bool) (fs0 : Fsm) (zipPath tempDir : FPath)
    (files : IFiles) (useNativeZip : Bool) : ZipOutcome × Fsm :=
  match copyPhase tNow fs0 tempDir files with
  | (false, fs1) => (.failure .copyErr, removeTree fs1 tempDir)
  | (true, fs1) =>
    zipStep tempDir (if useNativeZip then bestzipRun tNow ioErr fs1 zipPath tempDir
      else nodeZipRun tNow ioErr fs1 zipPath files)

example :
    zipOp 0 false [([0], ⟨.bytes 3, 6, 0⟩)] [5] [9] [⟨[1], [0]⟩] false =
      (.success, [([5], ⟨.zipMarker true, 0, 0⟩), ([0], ⟨.bytes 3, 6, 0⟩)]) := by decide

example :
    (zipOp 0 true [([0], ⟨.bytes 3, 6, 0⟩)] [5] [9] [⟨[1], [0]⟩] false).2 =
      [([5], ⟨.zipMarker false, 0, 0⟩), ([0], ⟨.bytes 3, 6, 0⟩)] := by decide

/-! ### Basic lemmas on the filesystem model -/

theorem lookupA_cons {α : Type} (q : FPath) (a : α) (l : List (FPath × α)) (p : FPath) :
    lookupA ((q, a) :: l) p = if q = p then some a else lookupA l p := rfl

theorem lookupA_filter {α : Type} (pr : FPath × α → Bool) (q : FPath)
    (hpr : ∀ a, pr (q, a) = true) :
    ∀ l : List (FPath × α), lookupA (l.filter pr) q = lookupA l q := by
  intro l
  induction l with
  | nil => rfl
  | cons e rest ih =>
    obtain ⟨k, v⟩ := e
    by_cases hk : k = q
    · subst hk
      rw [List.filter_cons_of_pos (hpr v)]
      simp [lookupA_cons]
    · by_cases hp : pr (k, v) = true
      · rw [List.filter_cons_of_pos hp]
        simp only [lookupA_cons, if_neg hk]
        exact ih
      · rw [List.filter_cons_of_neg (by simpa using hp)]
        simp only [lookupA_cons, if_neg hk]
        exact ih

theorem lookupFile_setFile (fs : Fsm) (p : FPath) (a : FileAttrs) (q : FPath) :
    lookupFile (setFile fs p a) q = if p = q then some a else lookupFile fs q := by
  unfold lookupFile setFile
  rw [lookupA_cons]
  by_cases h : p = q
  · simp [h]
  · rw [if_neg h, if_neg h]
    exact lookupA_filter _ q (fun b => by simp [Ne.symm h]) fs

theorem lookupMode_setMode (mm : ModeMap) (p : FPath) (v : Nat) (q : FPath) :
    lookupMode (setMode mm p v) q = if p = q then some v else lookupMode mm q := by
  unfold lookupMode setMode
  rw [lookupA_cons]
  by_cases h : p = q
  · simp [h]
  · rw [if_neg h, if_neg h]
    exact lookupA_filter _ q (fun b => by simp [Ne.symm h]) mm

theorem lookupFile_removeTree (fs : Fsm) (root q : FPath) (h : isPre root q = false) :
    lookupFile (removeTree fs root) q = lookupFile fs q := by
  unfold lookupFile removeTree
  exact lookupA_filter _ q (fun b => by simp [h]) fs

theorem lookupFile_mem (fs : Fsm) (p : FPath) (a : FileAttrs)
    (h : lookupFile fs p = some a) : (p, a) ∈ fs := by
  unfold lookupFile at h
  induction fs with
  | nil => simp [lookupA] at h
  | cons e rest ih =>
    obtain ⟨k, v⟩ := e
    rw [lookupA_cons] at h
    by_cases hk : k = p
    · rw [if_pos hk] at h
      injection h with h
      subst hk h
      exact List.mem_cons_self _ _
    · rw [if_neg hk] at h
      exact List.mem_cons_of_mem _ (ih h)

theorem statView_of_lookup (fs : Fsm) (p : FPath) (a : FileAttrs)
    (h : lookupFile fs p = some a) :
    statView fs p = some (.fileView a.data a.mode) := by
  unfold statView
  rw [h]

theorem statView_fileView_iff (fs : Fsm) (p : FPath) (d : FileData) (m : Nat) :
    statView fs p = some (.fileView d m) ↔
      ∃ a, lookupFile fs p = some a ∧ a.data = d ∧ a.mode = m := by
  cases h : lookupFile fs p with
  | none =>
    constructor
    · intro hc
      simp only [statView, h] at hc
      split at hc <;> simp at hc
    · rintro ⟨a, ha, -, -⟩
      cases ha
  | some a => simp [statView, h]

/-! ### Normal form of the internal writer's entry stream -/

/-- Whether stat at `p` observes a regular file. -/
def isFileStat (fs : Fsm) (p : FPath) : Bool :=
  match statView fs p with
  | some (.fileView _ _) => true
  | _ => false

/-- The entry the internal writer emits for a regular file: name
`localPath`, the file's mode, date pinned to 0, and the content read at
`rootPath`. -/
def mkEntryOf (fs : Fsm) (f : IFile) : Entry :=
  match lookupFile fs f.rootPath with
  | some a => ⟨f.localPath, a.mode, 0, a.data⟩
  | none => ⟨f.localPath, 0, 0, .bytes 0⟩

/-- Description of the internal writer's entry stream: one entry per
listed file whose `rootPath` is a regular file, in list order. -/
def entriesSpec (fs : Fsm) (files : IFiles) : List Entry :=
  (files.filter (fun f => isFileStat fs f.rootPath)).map (mkEntryOf fs)

/-- Description of the `fileModes` map contents. -/
def modesSpec (fs : Fsm) (files : IFiles) (p : FPath) : Option Nat :=
  if files.any (fun f => decide (f.rootPath = p)) then
    match statView fs p with
    | some (.fileView _ m) => some m
    | _ => none
  else none

theorem collectModes_isSome (fs : Fsm) (files : IFiles) :
    (collectModes fs files).isSome = true ↔
      ∀ f ∈ files, (statView fs f.rootPath).isSome = true := by
  induction files with
  | nil => simp [collectModes]
  | cons f rest ih =>
    cases hs : statView fs f.rootPath with
    | none => simp [collectModes, hs]
    | some v =>
      cases v with
      | dirView => simpa [collectModes, hs] using ih
      | fileView d m => simpa [collectModes, hs] using ih

theorem modesSpec_dir (fs : Fsm) (files : IFiles) (p : FPath)
    (hs : statView fs p = some .dirView) : modesSpec fs files p = none := by
  unfold modesSpec
  rw [hs]
  split <;> rfl

theorem collectModes_desc (fs : Fsm) :
    ∀ (files : IFiles) (mm : ModeMap), collectModes fs files = some mm →
      ∀ p, lookupMode mm p = modesSpec fs files p := by
  intro files
  induction files with
  | nil =>
    intro mm h p
    simp only [collectModes, Option.some_inj] at h
    subst h
    simp [lookupMode, lookupA, modesSpec]
  | cons f rest ih =>
    intro mm h p
    rw [collectModes] at h
    cases hs : statView fs f.rootPath with
    | none => rw [hs] at h; exact absurd h (by simp)
    | some v =>
      cases v with
      | dirView =>
        rw [hs] at h
        by_cases hp : f.rootPath = p
        · subst hp
          rw [ih mm h _, modesSpec_dir fs rest _ hs, modesSpec_dir fs (f :: rest) _ hs]
        · rw [ih mm h p]
          simp [modesSpec, List.any_cons, hp]
      | fileView d m =>
        rw [hs] at h
        rw [Option.map_eq_some'] at h
        obtain ⟨mm', hmm', rfl⟩ := h
        rw [lookupMode_setMode]
        by_cases hp : f.rootPath = p
        · subst hp
          simp [modesSpec, hs]
        · rw [if_neg hp, ih mm' hmm' p]
          simp [modesSpec, List.any_cons, hp]

theorem appendEntries_desc (fs : Fsm) (files : IFiles) (mm : ModeMap)
    (hdesc : ∀ p, lookupMode mm p = modesSpec fs files p) :
    ∀ l : IFiles, (∀ f ∈ l, f ∈ files) → appendEntries fs mm l = some (entriesSpec fs l) := by
  intro l
  induction l with
  | nil => intro _; rfl
  | cons f rest ih =>
    intro hsub
    have hf : f ∈ files := hsub f (List.mem_cons_self _ _)
    have hany : files.any (fun g => decide (g.rootPath = f.rootPath)) = true :=
      List.any_eq_true.mpr ⟨f, hf, by simp⟩
    have hm := hdesc f.rootPath
    rw [modesSpec, if_pos hany] at hm
    have hrest := ih (fun g hg => hsub g (List.mem_cons_of_mem _ hg))
    cases hs : statView fs f.rootPath with
    | none =>
      rw [hs] at hm
      have hm2 : lookupMode mm f.rootPath = none := hm.trans rfl
      have hfilt : isFileStat fs f.rootPath = false := by simp [isFileStat, hs]
      simp only [appendEntries, hm2]
      rw [hrest]
      simp [entriesSpec, hfilt]
    | some v =>
      cases v with
      | dirView =>
        rw [hs] at hm
        have hm2 : lookupMode mm f.rootPath = none := hm.trans rfl
        have hfilt : isFileStat fs f.rootPath = false := by simp [isFileStat, hs]
        simp only [appendEntries, hm2]
        rw [hrest]
        simp [entriesSpec, hfilt]
      | fileView d m =>
        rw [hs] at hm
        have hm2 : lookupMode mm f.rootPath = some m := hm.trans rfl
        obtain ⟨a, ha, had, ham⟩ := (statView_fileView_iff fs f.rootPath d m).mp hs
        have hfilt : isFileStat fs f.rootPath = true := by simp [isFileStat, hs]
        have hmk : mkEntryOf fs f = ⟨f.localPath, m, 0, a.data⟩ := by
          simp [mkEntryOf, ha, ham]
        simp only [appendEntries, hm2, ha]
        rw [hrest]
        simp [entriesSpec, hfilt, hmk]

theorem nodeZipEntries_eq (fs : Fsm) (files : IFiles)
    (hAll : ∀ f ∈ files, (statView fs f.rootPath).isSome = true) :
    nodeZipEntries fs files = some (entriesSpec fs files) := by
  obtain ⟨mm, hmm⟩ := Option.isSome_iff_exists.mp ((collectModes_isSome fs files).mpr hAll)
  rw [nodeZipEntries, hmm]
  show appendEntries fs mm files = _
  exact appendEntries_desc fs files mm (collectModes_desc fs files mm hmm) files (fun _ h => h)

theorem nodeZipEntries_none (fs : Fsm) (files : IFiles)
    (h : ¬ ∀ f ∈ files, (statView fs f.rootPath).isSome = true) :
    nodeZipEntries fs files = none := by
  have hnone : collectModes fs files = none := by
    cases hc : collectModes fs files with
    | none => rfl
    | some mm =>
      exact absurd ((collectModes_isSome fs files).mp (by rw [hc]; rfl)) h
  rw [nodeZipEntries, hnone]
  rfl

theorem appendEntries_dates (fs : Fsm) (mm : ModeMap) :
    ∀ (l : IFiles) (es : List Entry), appendEntries fs mm l = some es →
      ∀ e ∈ es, e.date = 0 := by
  intro l
  induction l with
  | nil =>
    intro es h e he
    simp only [appendEntries, Option.some_inj] at h
    subst h
    simp at he
  | cons f rest ih =>
    intro es h e he
    rw [appendEntries] at h
    cases hm : lookupMode mm f.rootPath with
    | none =>
      rw [hm] at h
      exact ih es h e he
    | some m =>
      rw [hm] at h
      cases ha : lookupFile fs f.rootPath with
      | none => rw [ha] at h; exact absurd h (by simp)
      | some a =>
        rw [ha, Option.map_eq_some'] at h
        obtain ⟨es', hes', rfl⟩ := h
        rcases List.mem_cons.mp he with rfl | hmem
        · rfl
        · exact ih es' hes' e hmem

theorem nodeZipEntries_dates (fs : Fsm) (files : IFiles) (es : List Entry)
    (h : nodeZipEntries fs files = some es) : ∀ e ∈ es, e.date = 0 := by
  rw [nodeZipEntries] at h
  cases hc : collectModes fs files with
  | none => rw [hc] at h; exact absurd h (by simp)
  | some mm =>
    rw [hc] at h
    exact appendEntries_dates fs mm files es h

theorem mkEntryOf_congr (fs1 fs2 : Fsm) (f : IFile)
    (h : statView fs1 f.rootPath = statView fs2 f.rootPath)
    (hfile : isFileStat fs2 f.rootPath = true) :
    mkEntryOf fs1 f = mkEntryOf fs2 f := by
  cases hs2 : statView fs2 f.rootPath with
  | none =>
    unfold isFileStat at hfile
    rw [hs2] at hfile
    simp at hfile
  | some v =>
    cases v with
    | dirView =>
      unfold isFileStat at hfile
      rw [hs2] at hfile
      simp at hfile
    | fileView d m =>
      obtain ⟨a2, ha2, had2, ham2⟩ := (statView_fileView_iff _ _ _ _).mp hs2
      obtain ⟨a1, ha1, had1, ham1⟩ := (statView_fileView_iff _ _ _ _).mp (h.trans hs2)
      simp [mkEntryOf, ha1, ha2, had1, ham1, had2, ham2]

theorem entriesSpec_cons (fs : Fsm) (f : IFile) (rest : IFiles) :
    entriesSpec fs (f :: rest) =
      if isFileStat fs f.rootPath then mkEntryOf fs f :: entriesSpec fs rest
      else entriesSpec fs rest := by
  unfold entriesSpec
  rw [List.filter_cons]
  split <;> simp

theorem entriesSpec_congr (fs1 fs2 : Fsm) :
    ∀ files : IFiles, (∀ f ∈ files, statView fs1 f.rootPath = statView fs2 f.rootPath) →
      entriesSpec fs1 files = entriesSpec fs2 files := by
  intro files
  induction files with
  | nil => intro _; rfl
  | cons f rest ih =>
    intro h
    have hf := h f (List.mem_cons_self _ _)
    have hrest := ih (fun g hg => h g (List.mem_cons_of_mem _ hg))
    have hstat : isFileStat fs1 f.rootPath = isFileStat fs2 f.rootPath := by
      unfold isFileStat
      rw [hf]
    rw [entriesSpec_cons, entriesSpec_cons, hstat, hrest]
    by_cases hc : isFileStat fs2 f.rootPath = true
    · rw [if_pos hc, if_pos hc, mkEntryOf_congr fs1 fs2 f hf hc]
    · rw [if_neg hc, if_neg hc]

/-! ### C1 -/

/-- C1: Archive determinism of the internal writer.  If two filesystem
states agree, at every listed `rootPath`, on what stat observes apart
from timestamps (file content and permission mode, or directoriness),
then `nodeZip` hands the zip codec the identical entry stream — so the
archive bytes, a function of that stream, are identical across the two
runs regardless of the original files' timestamps — and every stored
entry's date is pinned to the fixed epoch `0` (`new Date(0)`). -/
theorem cl1_archive_determinism (fs1 fs2 : Fsm) (files : IFiles)
    (hEq : ∀ f ∈ files, statView fs1 f.rootPath = statView fs2 f.rootPath) :
    nodeZipEntries fs1 files = nodeZipEntries fs2 files ∧
      ∀ es, nodeZipEntries fs1 files = some es → ∀ e ∈ es, e.date = 0 := by
  refine ⟨?_, fun es hes e he => nodeZipEntries_dates fs1 files es hes e he⟩
  by_cases hAll : ∀ f ∈ files, (statView fs1 f.rootPath).isSome = true
  · have hAll2 : ∀ f ∈ files, (statView fs2 f.rootPath).isSome = true := by
      intro f hf
      rw [← hEq f hf]
      exact hAll f hf
    rw [nodeZipEntries_eq fs1 files hAll, nodeZipEntries_eq fs2 files hAll2,
      entriesSpec_congr fs1 fs2 files hEq]
  · have h2 : ¬ ∀ f ∈ files, (statView fs2 f.rootPath).isSome = true := by
      intro hc
      exact hAll (fun f hf => by rw [hEq f hf]; exact hc f hf)
    rw [nodeZipEntries_none fs1 files hAll, nodeZipEntries_none fs2 files h2]

/-- C1 witness: two runs over file contents and modes that agree but
whose mtimes differ (11 vs 99) produce the same entry stream, with all
dates pinned to 0. -/
theorem cl1_witness :
    nodeZipEntries [([0], ⟨.bytes 5, 7, 11⟩)] [⟨[1], [0]⟩] =
        nodeZipEntries [([0], ⟨.bytes 5, 7, 99⟩)] [⟨[1], [0]⟩] ∧
      ∀ es, nodeZipEntries [([0], ⟨.bytes 5, 7, 11⟩)] [⟨[1], [0]⟩] = some es →
        ∀ e ∈ es, e.date = 0 :=
  cl1_archive_determinism [([0], ⟨.bytes 5, 7, 11⟩)] [([0], ⟨.bytes 5, 7, 99⟩)]
    [⟨[1], [0]⟩] (by decide)

/-! ### C5 -/

/-- C5: Mode preservation by the internal writer.  For every listed file
whose `rootPath` stat observes a regular file of content `d` and mode
`m` (and provided every listed path stats successfully, otherwise the
operation rejects), the entry stream contains the entry for that file
carrying exactly the recorded mode `m`, so permission bits (including
executable bits) are preserved in the archive. -/
theorem cl5_mode_preservation (fs : Fsm) (files : IFiles) (f : IFile)
    (d : FileData) (m : Nat)
    (hAll : ∀ g ∈ files, (statView fs g.rootPath).isSome = true)
    (hf : f ∈ files) (hstat : statView fs f.rootPath = some (.fileView d m)) :
    ∃ es, nodeZipEntries fs files = some es ∧ (⟨f.localPath, m, 0, d⟩ : Entry) ∈ es := by
  refine ⟨entriesSpec fs files, nodeZipEntries_eq fs files hAll, ?_⟩
  unfold entriesSpec
  refine List.mem_map.mpr ⟨f, List.mem_filter.mpr ⟨hf, by simp [isFileStat, hstat]⟩, ?_⟩
  obtain ⟨a, ha, had, ham⟩ := (statView_fileView_iff _ _ _ _).mp hstat
  simp [mkEntryOf, ha, had, ham]

/-- C5 witness: a file with mode 493 (octal 755, executable) is stored
with exactly that mode. -/
theorem cl5_witness :
    ∃ es, nodeZipEntries [([0], ⟨.bytes 4, 493, 3⟩)] [⟨[1], [0]⟩] = some es ∧
      (⟨[1], 493, 0, .bytes 4⟩ : Entry) ∈ es :=
  cl5_mode_preservation [([0], ⟨.bytes 4, 493, 3⟩)] [⟨[1], [0]⟩] ⟨[1], [0]⟩
    (.bytes 4) 493 (by decide) (by decide) (by decide)

/-! ### C8 -/

/-- C8: Directory entries are silently omitted by the internal writer.
Provided every listed `rootPath` stats successfully, the entry stream is
exactly one entry per listed file whose `rootPath` is a regular file, in
list order: files whose `rootPath` is a directory get no recorded mode
and are skipped, so the archive contains entries only for non-directory
files. -/
theorem cl8_directories_omitted (fs : Fsm) (files : IFiles)
    (hAll : ∀ g ∈ files, (statView fs g.rootPath).isSome = true) :
    nodeZipEntries fs files =
      some ((files.filter (fun f => isFileStat fs f.rootPath)).map (mkEntryOf fs)) :=
  nodeZipEntries_eq fs files hAll

/-- C8 witness: a list with one directory and one regular file produces
an entry stream containing only the regular file. -/
theorem cl8_witness :
    nodeZipEntries [([0, 1], ⟨.bytes 2, 5, 9⟩)] [⟨[7], [0]⟩, ⟨[8], [0, 1]⟩] =
      some ((([⟨[7], [0]⟩, ⟨[8], [0, 1]⟩] : IFiles).filter
          (fun f => isFileStat [([0, 1], ⟨.bytes 2, 5, 9⟩)] f.rootPath)).map
        (mkEntryOf [([0, 1], ⟨.bytes 2, 5, 9⟩)])) :=
  cl8_directories_omitted [([0, 1], ⟨.bytes 2, 5, 9⟩)] [⟨[7], [0]⟩, ⟨[8], [0, 1]⟩]
    (by decide)

example : nodeZipEntries [([0, 1], ⟨.bytes 2, 5, 9⟩)] [⟨[7], [0]⟩, ⟨[8], [0, 1]⟩] =
    some [⟨[8], 5, 0, .bytes 2⟩] := by decide

/-! ### Path and copy-phase lemmas -/

theorem isPre_append_self (p x : FPath) : isPre p (p ++ x) = true := by
  induction p with
  | nil => rfl
  | cons a as ih => simp [isPre, ih]

theorem ne_of_not_under (tempDir q : FPath) (h : isPre tempDir q = false) (y : FPath) :
    q ≠ tempDir ++ y := by
  intro hc
  rw [hc, isPre_append_self] at h
  cases h

theorem foldl_copy_lookup (tNow : Nat) (src dst q : FPath) (hq : ∀ x, q ≠ dst ++ x) :
    ∀ (l : List (FPath × FileAttrs)) (acc : Fsm),
      lookupFile (l.foldl (fun acc e => setFile acc (dst ++ e.1.drop src.length)
        ⟨e.2.data, e.2.mode, tNow⟩) acc) q = lookupFile acc q := by
  intro l
  induction l with
  | nil => intro acc; rfl
  | cons e rest ih =>
    intro acc
    rw [List.foldl_cons, ih, lookupFile_setFile, if_neg]
    intro hc
    exact hq _ hc.symm

theorem fsCopy_lookup (tNow : Nat) (fs : Fsm) (src dst q : FPath) (fs' : Fsm)
    (h : fsCopy tNow fs src dst = some fs') (hq : ∀ x, q ≠ dst ++ x) :
    lookupFile fs' q = lookupFile fs q := by
  unfold fsCopy at h
  cases hs : statView fs src with
  | none => rw [hs] at h; cases h
  | some v =>
    cases v with
    | fileView d m =>
      rw [hs] at h
      injection h with h
      subst h
      rw [lookupFile_setFile, if_neg]
      intro hc
      exact hq [] (by rw [← hc, List.append_nil])
    | dirView =>
      rw [hs] at h
      injection h with h
      subst h
      unfold copyTree
      exact foldl_copy_lookup tNow src dst q hq _ fs

theorem copyPhase_lookup (tNow : Nat) (temp : FPath) :
    ∀ (files : IFiles) (fs : Fsm) (q : FPath), isPre temp q = false →
      lookupFile (copyPhase tNow fs temp files).2 q = lookupFile fs q := by
  intro files
  induction files with
  | nil => intro fs q _; rfl
  | cons f rest ih =>
    intro fs q hq
    rw [copyPhase]
    cases hc : fsCopy tNow fs f.rootPath (temp ++ f.localPath) with
    | none => rfl
    | some fs' =>
      show lookupFile (copyPhase tNow fs' temp rest).2 q = lookupFile fs q
      rw [ih fs' q hq]
      refine fsCopy_lookup tNow fs f.rootPath (temp ++ f.localPath) q fs' hc ?_
      intro x hc2
      rw [List.append_assoc] at hc2
      exact ne_of_not_under temp q hq _ hc2

theorem removeTree_all (fs : Fsm) (root : FPath) :
    ((removeTree fs root).all (fun e => !(isPre root e.1))) = true := by
  rw [List.all_eq_true]
  intro e he
  exact (List.mem_filter.mp he).2

theorem zipOp_copyFail (tNow : Nat) (ioErr : Bool) (fs0 : Fsm)
    (zipPath tempDir : FPath) (files : IFiles) (useNativeZip : Bool) (fs1 : Fsm)
    (h : copyPhase tNow fs0 tempDir files = (false, fs1)) :
    zipOp tNow ioErr fs0 zipPath tempDir files useNativeZip =
      (.failure .copyErr, removeTree fs1 tempDir) := by
  unfold zipOp
  rw [h]

theorem zipOp_zipStep (tNow : Nat) (ioErr : Bool) (fs0 : Fsm)
    (zipPath tempDir : FPath) (files : IFiles) (useNativeZip : Bool) (fs1 : Fsm)
    (h : copyPhase tNow fs0 tempDir files = (true, fs1)) :
    zipOp tNow ioErr fs0 zipPath tempDir files useNativeZip =
      zipStep tempDir (if useNativeZip then bestzipRun tNow ioErr fs1 zipPath tempDir
        else nodeZipRun tNow ioErr fs1 zipPath files) := by
  unfold zipOp
  rw [h]

theorem zipOp_snd_removeTree (tNow : Nat) (ioErr : Bool) (fs0 : Fsm)
    (zipPath tempDir : FPath) (files : IFiles) (useNativeZip : Bool) :
    ∃ fsx, (zipOp tNow ioErr fs0 zipPath tempDir files useNativeZip).2 =
      removeTree fsx tempDir := by
  rcases hc : copyPhase tNow fs0 tempDir files with ⟨ok, fs1⟩
  cases ok with
  | false =>
    exact ⟨fs1, by
      rw [zipOp_copyFail tNow ioErr fs0 zipPath tempDir files useNativeZip fs1 hc]⟩
  | true =>
    have hzs := zipOp_zipStep tNow ioErr fs0 zipPath tempDir files useNativeZip fs1 hc
    rcases hz : (if useNativeZip then bestzipRun tNow ioErr fs1 zipPath tempDir
        else nodeZipRun tNow ioErr fs1 zipPath files) with ⟨oes, fs2⟩
    rw [hz] at hzs
    cases oes with
    | none => exact ⟨fs2, by rw [hzs]; rfl⟩
    | some es => exact ⟨fs2, by rw [hzs]; rfl⟩

/-! ### C2 -/

/-- C2: Temp-directory cleanup.  For every invocation of the zip
operation — success, copy failure or zip-write failure, native or
internal strategy — the final filesystem contains no path at or below
the scoped temporary staging directory: the scope's finalizer removes
it on every exit path.  (The scoped temp-directory lifecycle of
`makeTempPathScoped`/`Effect.scoped` is modelled from the spec, its
implementation being outside the visible sources.) -/
theorem cl2_temp_cleanup (tNow : Nat) (ioErr : Bool) (fs0 : Fsm)
    (zipPath tempDir : FPath) (files : IFiles) (useNativeZip : Bool) :
    ((zipOp tNow ioErr fs0 zipPath tempDir files useNativeZip).2.all
      (fun e => !(isPre tempDir e.1))) = true := by
  obtain ⟨fsx, hx⟩ := zipOp_snd_removeTree tNow ioErr fs0 zipPath tempDir files useNativeZip
  rw [hx]
  exact removeTree_all fsx tempDir

/-! ### C3 -/

/-- C3 counterexample: the claim that a failing zip operation leaves no
partially written archive at the final `zipPath` is false: with one
file staged successfully and an injected write error in the internal
writer (the `zipArchive.on('error', reject)` path), the operation fails
with a zip error and the incomplete file created by
`fs.createWriteStream(zipPath)` — which writes directly at the final
path, with no temp-and-rename and no delete-on-failure — remains at
`zipPath`. -/
theorem cl3_counterexample :
    (zipOp 0 true [([0], ⟨.bytes 3, 6, 0⟩)] [5] [9] [⟨[1], [0]⟩] false).1 =
        .failure .zipErr ∧
      lookupFile (zipOp 0 true [([0], ⟨.bytes 3, 6, 0⟩)] [5] [9] [⟨[1], [0]⟩] false).2 [5] =
        some ⟨.zipMarker false, 0, 0⟩ := by decide

/-- C3 (amended): when the zip operation fails during the copy phase,
no archive file is created at the final `zipPath` (archiving starts
only after all copies succeed), provided no file already existed there
and `zipPath` does not lie inside the temporary directory; but the
archive is written directly at the final path — not to a temporary path
moved into place atomically, nor deleted on failure — so a write error
in the zip phase leaves a partially written file at `zipPath`. -/
theorem cl3_amended (tNow : Nat) (ioErr : Bool) (fs0 : Fsm)
    (zipPath tempDir : FPath) (files : IFiles) (useNativeZip : Bool)
    (hz0 : lookupFile fs0 zipPath = none)
    (hzt : isPre tempDir zipPath = false)
    (hfail : (zipOp tNow ioErr fs0 zipPath tempDir files useNativeZip).1 =
      .failure .copyErr) :
    lookupFile (zipOp tNow ioErr fs0 zipPath tempDir files useNativeZip).2 zipPath =
      none := by
  rcases hc : copyPhase tNow fs0 tempDir files with ⟨ok, fs1⟩
  have hfs1 : lookupFile fs1 zipPath = none := by
    have hp := copyPhase_lookup tNow tempDir files fs0 zipPath hzt
    rw [hc] at hp
    rw [show fs1 = ((ok, fs1) : Bool × Fsm).2 from rfl, hp, hz0]
  cases ok with
  | false =>
    rw [zipOp_copyFail tNow ioErr fs0 zipPath tempDir files useNativeZip fs1 hc]
    exact (lookupFile_removeTree fs1 tempDir zipPath hzt).trans hfs1
  | true =>
    exfalso
    have hzs := zipOp_zipStep tNow ioErr fs0 zipPath tempDir files useNativeZip fs1 hc
    rcases hz : (if useNativeZip then bestzipRun tNow ioErr fs1 zipPath tempDir
        else nodeZipRun tNow ioErr fs1 zipPath files) with ⟨oes, fs2⟩
    rw [hz] at hzs
    rw [hzs] at hfail
    cases oes <;> simp [zipStep] at hfail

/-- C3 amended-claim witness: with a nonexistent source file the copy
phase fails and nothing is left at the final archive path. -/
theorem cl3_witness :
    lookupFile ([] : Fsm) [5] = none ∧ isPre [9] [5] = false ∧
      (zipOp 0 false [] [5] [9] [⟨[1], [0]⟩] false).1 = .failure .copyErr ∧
      lookupFile (zipOp 0 false [] [5] [9] [⟨[1], [0]⟩] false).2 [5] = none :=
  ⟨by decide, by decide, by decide,
    cl3_amended 0 false [] [5] [9] [⟨[1], [0]⟩] false (by decide) (by decide) (by decide)⟩

/-! ### C4 -/

/-- C4 counterexample: the archive content of the internal-writer
strategy is not drawn from the staged directory.  One `IFile` whose
`rootPath` is a directory containing a file: staging copies it into the
temporary directory (so the native strategy would archive its contents),
yet the internal writer's entry stream is empty — it reads content from
the original `rootPath`s and skips directories, so the two strategies do
not produce equivalent structure and the claim, which asserts both
strategies draw the archive's content from the staged directory, fails
at this input. -/
theorem cl4_counterexample :
    (copyPhase 11 [([0, 1], ⟨.bytes 7, 1, 5⟩)] [9] [⟨[2], [0]⟩]).1 = true ∧
      nodeZipEntries (copyPhase 11 [([0, 1], ⟨.bytes 7, 1, 5⟩)] [9] [⟨[2], [0]⟩]).2
          [⟨[2], [0]⟩] = some [] ∧
      stagedListing (copyPhase 11 [([0, 1], ⟨.bytes 7, 1, 5⟩)] [9] [⟨[2], [0]⟩]).2 [9] =
        [⟨[2, 1], 1, 0, .bytes 7⟩] := by decide

theorem copyPhase_ok (tNow : Nat) (temp : FPath) :
    ∀ (files : IFiles) (fs : Fsm),
      (∀ f ∈ files, (lookupFile fs f.rootPath).isSome = true) →
      (∀ f ∈ files, isPre temp f.rootPath = false) →
      (files.map (fun f => f.localPath)).Nodup →
      (copyPhase tNow fs temp files).1 = true ∧
      (∀ q, (∀ g ∈ files, q ≠ temp ++ g.localPath) →
        lookupFile (copyPhase tNow fs temp files).2 q = lookupFile fs q) ∧
      (∀ f ∈ files, ∃ a, lookupFile fs f.rootPath = some a ∧
        lookupFile (copyPhase tNow fs temp files).2 (temp ++ f.localPath) =
          some ⟨a.data, a.mode, tNow⟩) := by
  intro files
  induction files with
  | nil =>
    intro fs _ _ _
    exact ⟨rfl, fun q _ => rfl, by simp⟩
  | cons f rest ih =>
    intro fs hEx hNT hND
    obtain ⟨a, ha⟩ := Option.isSome_iff_exists.mp (hEx f (List.mem_cons_self _ _))
    have hcopy : fsCopy tNow fs f.rootPath (temp ++ f.localPath) =
        some (setFile fs (temp ++ f.localPath) ⟨a.data, a.mode, tNow⟩) := by
      unfold fsCopy
      rw [statView_of_lookup fs f.rootPath a ha]
    have hstep : copyPhase tNow fs temp (f :: rest) =
        copyPhase tNow (setFile fs (temp ++ f.localPath) ⟨a.data, a.mode, tNow⟩) temp rest := by
      rw [copyPhase, hcopy]
    rw [List.map_cons, List.nodup_cons] at hND
    obtain ⟨hnotin, hndrest⟩ := hND
    have hEx' : ∀ g ∈ rest,
        (lookupFile (setFile fs (temp ++ f.localPath) ⟨a.data, a.mode, tNow⟩) g.rootPath).isSome
          = true := by
      intro g hg
      rw [lookupFile_setFile]
      split
      · rfl
      · exact hEx g (List.mem_cons_of_mem _ hg)
    obtain ⟨ih1, ih2, ih3⟩ :=
      ih (setFile fs (temp ++ f.localPath) ⟨a.data, a.mode, tNow⟩) hEx'
        (fun g hg => hNT g (List.mem_cons_of_mem _ hg)) hndrest
    refine ⟨by rw [hstep]; exact ih1, ?_, ?_⟩
    · intro q hq
      rw [hstep, ih2 q (fun g hg => hq g (List.mem_cons_of_mem _ hg)), lookupFile_setFile,
        if_neg]
      exact fun hc => hq f (List.mem_cons_self _ _) hc.symm
    · intro g hg
      rcases List.mem_cons.mp hg with rfl | hgr
      · refine ⟨a, ha, ?_⟩
        rw [hstep, ih2 (temp ++ g.localPath) ?_, lookupFile_setFile, if_pos rfl]
        intro g' hg' hceq
        have : g.localPath = g'.localPath := List.append_cancel_left hceq
        exact hnotin (List.mem_map.mpr ⟨g', hg', this.symm⟩)
      · obtain ⟨a', ha', hstaged⟩ := ih3 g hgr
        have hpres : lookupFile (setFile fs (temp ++ f.localPath) ⟨a.data, a.mode, tNow⟩)
            g.rootPath = lookupFile fs g.rootPath := by
          rw [lookupFile_setFile, if_neg]
          intro hceq
          exact ne_of_not_under temp g.rootPath
            (hNT g (List.mem_cons_of_mem _ hgr)) f.localPath hceq.symm
        rw [hpres] at ha'
        exact ⟨a', ha', by rw [hstep]; exact hstaged⟩

/-- C4 (amended): staging happens before archiving — the zip operation
copies every listed file from its `rootPath` to `tempDir ++ localPath`
in the scoped temporary directory before any archive step runs — and
when every `rootPath` is a regular file (the temporary directory being
fresh) with pairwise-distinct `localPath`s, the staged copy carries the
source's content and mode, and the internal writer's entry for each
file carries exactly that same content and mode under the name
`localPath`, so archive-relative paths are independent of the original
filesystem layout.  However the internal writer reads content from the
original `rootPath`s, not from the staged directory (see the
counterexample), so only the native strategy archives the staged
directory itself. -/
theorem cl4_amended (tNow : Nat) (fs0 : Fsm) (tempDir : FPath) (files : IFiles)
    (hFiles : ∀ f ∈ files, (lookupFile fs0 f.rootPath).isSome = true)
    (hDistinct : (files.map (fun f => f.localPath)).Nodup)
    (hFresh : ∀ e ∈ fs0, isPre tempDir e.1 = false) :
    (copyPhase tNow fs0 tempDir files).1 = true ∧
      (∀ f ∈ files, ∃ a, lookupFile fs0 f.rootPath = some a ∧
        lookupFile (copyPhase tNow fs0 tempDir files).2 (tempDir ++ f.localPath) =
          some ⟨a.data, a.mode, tNow⟩ ∧
        mkEntryOf (copyPhase tNow fs0 tempDir files).2 f =
          ⟨f.localPath, a.mode, 0, a.data⟩) ∧
      nodeZipEntries (copyPhase tNow fs0 tempDir files).2 files =
        some (files.map (mkEntryOf (copyPhase tNow fs0 tempDir files).2)) := by
  have hNT : ∀ f ∈ files, isPre tempDir f.rootPath = false := by
    intro f hf
    obtain ⟨a, ha⟩ := Option.isSome_iff_exists.mp (hFiles f hf)
    exact hFresh (f.rootPath, a) (lookupFile_mem fs0 f.rootPath a ha)
  obtain ⟨h1, h2, h3⟩ := copyPhase_ok tNow tempDir files fs0 hFiles hNT hDistinct
  have hRP : ∀ f ∈ files,
      lookupFile (copyPhase tNow fs0 tempDir files).2 f.rootPath =
        lookupFile fs0 f.rootPath := by
    intro f hf
    exact h2 f.rootPath (fun g _ => ne_of_not_under tempDir f.rootPath (hNT f hf) g.localPath)
  have hmk : ∀ f ∈ files, ∀ a, lookupFile fs0 f.rootPath = some a →
      mkEntryOf (copyPhase tNow fs0 tempDir files).2 f =
        ⟨f.localPath, a.mode, 0, a.data⟩ := by
    intro f hf a ha
    unfold mkEntryOf
    rw [hRP f hf, ha]
  have hAll : ∀ f ∈ files,
      (statView (copyPhase tNow fs0 tempDir files).2 f.rootPath).isSome = true := by
    intro f hf
    obtain ⟨a, ha⟩ := Option.isSome_iff_exists.mp (hFiles f hf)
    rw [statView_of_lookup _ f.rootPath a (by rw [hRP f hf, ha])]
    rfl
  refine ⟨h1, ?_, ?_⟩
  · intro f hf
    obtain ⟨a, ha, hstaged⟩ := h3 f hf
    exact ⟨a, ha, hstaged, hmk f hf a ha⟩
  · rw [nodeZipEntries_eq _ files hAll]
    unfold entriesSpec
    rw [List.filter_eq_self.mpr]
    intro f hf
    obtain ⟨a, ha⟩ := Option.isSome_iff_exists.mp (hFiles f hf)
    simp [isFileStat, statView_of_lookup _ f.rootPath a (by rw [hRP f hf, ha])]

/-- C4 amended-claim witness: one regular file staged and archived; the
entry carries the staged (= source) content and mode. -/
theorem cl4_witness :
    (copyPhase 7 [([0], ⟨.bytes 3, 6, 2⟩)] [9] [⟨[1], [0]⟩]).1 = true ∧
      (∀ f ∈ ([⟨[1], [0]⟩] : IFiles), ∃ a,
        lookupFile [([0], ⟨.bytes 3, 6, 2⟩)] f.rootPath = some a ∧
        lookupFile (copyPhase 7 [([0], ⟨.bytes 3, 6, 2⟩)] [9] [⟨[1], [0]⟩]).2
            ([9] ++ f.localPath) = some ⟨a.data, a.mode, 7⟩ ∧
        mkEntryOf (copyPhase 7 [([0], ⟨.bytes 3, 6, 2⟩)] [9] [⟨[1], [0]⟩]).2 f =
          ⟨f.localPath, a.mode, 0, a.data⟩) ∧
      nodeZipEntries (copyPhase 7 [([0], ⟨.bytes 3, 6, 2⟩)] [9] [⟨[1], [0]⟩]).2
          [⟨[1], [0]⟩] =
        some (([⟨[1], [0]⟩] : IFiles).map
          (mkEntryOf (copyPhase 7 [([0], ⟨.bytes 3, 6, 2⟩)] [9] [⟨[1], [0]⟩]).2)) :=
  cl4_amended 7 [([0], ⟨.bytes 3, 6, 2⟩)] [9] [⟨[1], [0]⟩] (by decide) (by decide)
    (by decide)

/-! ### C6: dependency resolver (modelled from the spec) -/

mutual
/-- Modelled from the spec: the `DependencyTree` record reported by the
package manager — a version, the `isRootDep` flag marking a package
satisfied by the hoisted root install, and name-keyed children.  The
Dependency Resolver's implementation is not among the visible sources
(only the `DependencyTree`/`DependencyMap` types are); package names
and versions are abstracted to numbers. -/
inductive DepTree where
  | node (version : Nat) (isRootDep : Bool) (deps : DepForest)

/-- Modelled from the spec: a `DependencyMap`, a name-keyed collection
of dependency trees. -/
inductive DepForest where
  | nil
  | cons (name : Nat) (t : DepTree) (rest : DepForest)
end

/-- The `isRootDep` flag of a tree node. -/
def DepTree.rootFlag : DepTree → Bool
  | .node _ r _ => r

/-- The version of a tree node. -/
def DepTree.ver : DepTree → Nat
  | .node v _ _ => v

/-- First-match association lookup on number-keyed association lists. -/
def lookupN {α : Type} : List (Nat × α) → Nat → Option α
  | [], _ => none
  | (k, v) :: rest, n => if k = n then some v else lookupN rest n

/-- Name lookup in a dependency map. -/
def depLookup : DepForest → Nat → Option DepTree
  | .nil, _ => none
  | .cons m t rest, n => if m = n then some t else depLookup rest n

mutual
/-- Modelled from the spec (§4.3): add one external package and its
transitive dependencies to the resolved map — a package whose node
carries `isRootDep = true` is excluded (hoisted), a package already in
the accumulated map is a no-op (cycle/duplicate guard, first-encountered
version wins), otherwise its name and version are recorded and its own
dependencies are walked. -/
def addDep (n : Nat) (t : DepTree) (acc : List (Nat × Nat)) : List (Nat × Nat) :=
  match t with
  | .node v r ds =>
    if r then acc
    else if (lookupN acc n).isSome then acc
    else addDeps ds ((n, v) :: acc)

/-- Modelled from the spec (§4.3): walk a dependency map, accumulating. -/
def addDeps (ds : DepForest) (acc : List (Nat × Nat)) : List (Nat × Nat) :=
  match ds with
  | .nil => acc
  | .cons m t rest => addDeps rest (addDep m t acc)
end

/-- Modelled from the spec (§4.3): the Dependency Resolver — resolve the
function's external package names against the root dependency map into
the minimal name-to-version map to install per function. -/
def resolveDependencies (externals : List Nat) (rootMap : DepForest) : List (Nat × Nat) :=
  externals.foldl (fun acc n =>
    match depLookup rootMap n with
    | some t => addDep n t acc
    | none => acc) []

mutual
/-- Every node named `A` below this tree carries `isRootDep = true`. -/
def treeAllMarked (A : Nat) : DepTree → Bool
  | .node _ _ ds => forestAllMarked A ds

/-- Every node named `A` in this map (at any depth) carries
`isRootDep = true`. -/
def forestAllMarked (A : Nat) : DepForest → Bool
  | .nil => true
  | .cons n t rest =>
    ((!(decide (n = A))) || t.rootFlag) && treeAllMarked A t && forestAllMarked A rest
end

theorem depResolveAux (A : Nat) : ∀ k : Nat,
    (∀ (t : DepTree) (n : Nat) (acc : List (Nat × Nat)), sizeOf t < k →
      (n = A → t.rootFlag = true) → treeAllMarked A t = true →
      lookupN acc A = none → lookupN (addDep n t acc) A = none) ∧
    (∀ (ds : DepForest) (acc : List (Nat × Nat)), sizeOf ds < k →
      forestAllMarked A ds = true → lookupN acc A = none →
      lookupN (addDeps ds acc) A = none) := by
  intro k
  induction k with
  | zero =>
    exact ⟨fun t n acc h => absurd h (by omega), fun ds acc h => absurd h (by omega)⟩
  | succ k ih =>
    obtain ⟨ih1, ih2⟩ := ih
    refine ⟨?_, ?_⟩
    · intro t n acc hsz hroot hmark hacc
      cases t with
      | node v r ds =>
        cases r with
        | true => simpa [addDep] using hacc
        | false =>
          have hnA : n ≠ A := by
            intro h
            have := hroot h
            simp [DepTree.rootFlag] at this
          rw [addDep]
          by_cases hl : (lookupN acc n).isSome = true
          · simp only [if_neg Bool.false_ne_true, hl, if_pos]
            exact hacc
          · simp only [if_neg Bool.false_ne_true, if_neg hl]
            refine ih2 ds ((n, v) :: acc) ?_ ?_ ?_
            · have hs : sizeOf (DepTree.node v false ds) < k + 1 := hsz
              simp [DepTree.node.sizeOf_spec] at hs
              omega
            · simpa [treeAllMarked] using hmark
            · simp [lookupN, hnA, hacc]
    · have haux : ∀ (j : Nat) (ds : DepForest) (acc : List (Nat × Nat)), sizeOf ds < j →
          sizeOf ds < k + 1 → forestAllMarked A ds = true → lookupN acc A = none →
          lookupN (addDeps ds acc) A = none := by
        intro j
        induction j with
        | zero => intro ds acc h; exact absurd h (by omega)
        | succ j ihj =>
          intro ds acc hj hk hmark hacc
          cases ds with
          | nil => simpa [addDeps] using hacc
          | cons m t rest =>
            have hj2 : 1 + m + sizeOf t + sizeOf rest < j + 1 := by
              simpa [DepForest.cons.sizeOf_spec] using hj
            have hk2 : 1 + m + sizeOf t + sizeOf rest < k + 1 := by
              simpa [DepForest.cons.sizeOf_spec] using hk
            simp only [forestAllMarked, Bool.and_eq_true] at hmark
            obtain ⟨⟨hroot, htm⟩, hfm⟩ := hmark
            rw [addDeps]
            refine ihj rest (addDep m t acc) (by omega) (by omega) hfm ?_
            refine ih1 t m acc (by omega) ?_ htm hacc
            intro h
            subst h
            simp at hroot
            exact hroot
      intro ds acc hsz hmark hacc
      exact haux (sizeOf ds + 1) ds acc (by omega) hsz hmark hacc

theorem forestMarked_lookup (A n : Nat) : ∀ (j : Nat) (ds : DepForest) (t : DepTree),
    sizeOf ds < j → forestAllMarked A ds = true → depLookup ds n = some t →
    (n = A → t.rootFlag = true) ∧ treeAllMarked A t = true := by
  intro j
  induction j with
  | zero => intro ds t h; exact absurd h (by omega)
  | succ j ihj =>
    intro ds t hj hm hl
    cases ds with
    | nil => cases hl
    | cons m u rest =>
      simp only [forestAllMarked, Bool.and_eq_true] at hm
      obtain ⟨⟨hroot, htm⟩, hfm⟩ := hm
      rw [depLookup] at hl
      by_cases hmn : m = n
      · rw [if_pos hmn] at hl
        injection hl with hl
        subst hl
        subst hmn
        refine ⟨?_, htm⟩
        intro h
        subst h
        simp at hroot
        exact hroot
      · rw [if_neg hmn] at hl
        have hr : sizeOf rest < j := by
          have := hj
          simp [DepForest.cons.sizeOf_spec] at this
          omega
        exact ihj rest t hr hfm hl

/-- C6: Dependency hoist correctness (modelled from the spec, the
resolver's implementation not being among the visible sources).  For
every dependency tree in which every node named `A` carries
`isRootDep = true`, the per-function resolved dependency map never
contains `A` — even when `A` also appears transitively below another,
non-hoisted package. -/
theorem cl6_hoist_exclusion (A : Nat) (externals : List Nat) (rootMap : DepForest)
    (hmark : forestAllMarked A rootMap = true) :
    lookupN (resolveDependencies externals rootMap) A = none := by
  suffices h : ∀ (l : List Nat) (acc : List (Nat × Nat)), lookupN acc A = none →
      lookupN (l.foldl (fun acc n =>
        match depLookup rootMap n with
        | some t => addDep n t acc
        | none => acc) acc) A = none by
    exact h externals [] rfl
  intro l
  induction l with
  | nil => intro acc hacc; exact hacc
  | cons n rest ih =>
    intro acc hacc
    rw [List.foldl_cons]
    apply ih
    cases hl : depLookup rootMap n with
    | none => exact hacc
    | some t =>
      obtain ⟨hroot, htm⟩ :=
        forestMarked_lookup A n (sizeOf rootMap + 1) rootMap t (by omega) hmark hl
      exact (depResolveAux A (sizeOf t + 1)).1 t n acc (by omega) hroot htm hacc

/-- C6 witness: package 1 is hoisted (`isRootDep = true`) both at the
root and as a transitive dependency of the non-hoisted package 2; the
resolved map contains package 2 but never package 1. -/
theorem cl6_witness :
    forestAllMarked 1 (.cons 1 (.node 10 true .nil)
        (.cons 2 (.node 20 false (.cons 1 (.node 10 true .nil) .nil)) .nil)) = true ∧
      resolveDependencies [2, 1] (.cons 1 (.node 10 true .nil)
        (.cons 2 (.node 20 false (.cons 1 (.node 10 true .nil) .nil)) .nil)) = [(2, 20)] ∧
      lookupN (resolveDependencies [2, 1] (.cons 1 (.node 10 true .nil)
        (.cons 2 (.node 20 false (.cons 1 (.node 10 true .nil) .nil)) .nil))) 1 = none :=
  ⟨by decide, by decide,
    cl6_hoist_exclusion 1 [2, 1] (.cons 1 (.node 10 true .nil)
      (.cons 2 (.node 20 false (.cons 1 (.node 10 true .nil) .nil)) .nil)) (by decide)⟩

/-! ### C7: build-context registry (modelled from the spec) -/

/-- Modelled from the spec: the Bundler Orchestrator's context registry
(entry to live build-context id) together with a fresh-id counter; the
orchestrator's implementation is not among the visible sources (only the
`BuildContext` interface is). -/
structure OrchState where
  registry : List (Nat × Nat)
  nextId : Nat
deriving DecidableEq, Repr

/-- Modelled from the spec: the registry operations — a rebuild trigger
for an entry, or disposing the entry's context. -/
inductive OrchOp where
  | rebuild (entry : Nat)
  | dispose (entry : Nat)
deriving DecidableEq, Repr

/-- Modelled from the spec: a rebuild trigger goes through the existing
context when the entry is registered (no second context is created) and
otherwise registers a fresh context; disposing removes the entry's
context from the registry. -/
def orchStep (st : OrchState) (op : OrchOp) : OrchState :=
  match op with
  | .rebuild e =>
    match lookupN st.registry e with
    | some _ => st
    | none => ⟨(e, st.nextId) :: st.registry, st.nextId + 1⟩
  | .dispose e => ⟨st.registry.filter (fun p => !(decide (p.1 = e))), st.nextId⟩

/-- Run a sequence of orchestrator operations from the empty registry. -/
def orchRun (ops : List OrchOp) : OrchState := ops.foldl orchStep ⟨[], 0⟩

/-- Number of live contexts registered for an entry. -/
def countKey (reg : List (Nat × Nat)) (e : Nat) : Nat :=
  reg.countP (fun p => decide (p.1 = e))

theorem countKey_of_lookupN_none (e : Nat) :
    ∀ reg : List (Nat × Nat), lookupN reg e = none → countKey reg e = 0 := by
  intro reg
  induction reg with
  | nil => intro _; rfl
  | cons p rest ih =>
    obtain ⟨k, v⟩ := p
    intro h
    rw [lookupN] at h
    by_cases hk : k = e
    · rw [if_pos hk] at h
      cases h
    · rw [if_neg hk] at h
      unfold countKey
      rw [List.countP_cons]
      simp only [hk, decide_False, if_false]
      simpa [countKey] using ih h

theorem orchStep_inv (st : OrchState) (op : OrchOp)
    (h : ∀ e, countKey st.registry e ≤ 1) :
    ∀ e, countKey (orchStep st op).registry e ≤ 1 := by
  intro e
  cases op with
  | rebuild e' =>
    cases hl : lookupN st.registry e' with
    | some c => simpa [orchStep, hl] using h e
    | none =>
      simp only [orchStep, hl]
      unfold countKey
      rw [List.countP_cons]
      by_cases he : e' = e
      · subst he
        have h0 := countKey_of_lookupN_none e' st.registry hl
        unfold countKey at h0
        simp [h0]
      · simp only [he, decide_False, Nat.add_zero]
        exact h e
  | dispose e' =>
    simp only [orchStep]
    calc countKey (st.registry.filter (fun p => !(decide (p.1 = e')))) e
        ≤ countKey st.registry e := List.Sublist.countP_le _ (List.filter_sublist _)
      _ ≤ 1 := h e

theorem orchRun_inv : ∀ (ops : List OrchOp) (st : OrchState),
    (∀ e, countKey st.registry e ≤ 1) →
    ∀ e, countKey (ops.foldl orchStep st).registry e ≤ 1 := by
  intro ops
  induction ops with
  | nil => intro st h; exact h
  | cons op rest ih =>
    intro st h
    rw [List.foldl_cons]
    exact ih (orchStep st op) (orchStep_inv st op h)

theorem lookupN_filter_ne (e : Nat) :
    ∀ reg : List (Nat × Nat), lookupN (reg.filter (fun p => !(decide (p.1 = e)))) e = none := by
  intro reg
  induction reg with
  | nil => rfl
  | cons p rest ih =>
    obtain ⟨k, v⟩ := p
    by_cases hk : k = e
    · rw [List.filter_cons_of_neg (by simp [hk])]
      exact ih
    · rw [List.filter_cons_of_pos (by simp [hk]), lookupN, if_neg hk]
      exact ih

/-- C7: At-most-one-context invariant (modelled from the spec, the
orchestrator's implementation not being among the visible sources).
For any sequence of rebuild/dispose operations from the empty registry,
at most one live context is registered per entry at any time; disposing
an entry's context removes it from the registry; and a rebuild trigger
for an entry that already has a live context leaves the registry
unchanged — it goes through the existing context rather than creating a
second one. -/
theorem cl7_at_most_one_context :
    (∀ (ops : List OrchOp) (e : Nat), countKey (orchRun ops).registry e ≤ 1) ∧
      (∀ (st : OrchState) (e : Nat), lookupN (orchStep st (.dispose e)).registry e = none) ∧
      (∀ (st : OrchState) (e c : Nat), lookupN st.registry e = some c →
        orchStep st (.rebuild e) = st) := by
  refine ⟨?_, ?_, ?_⟩
  · intro ops e
    exact orchRun_inv ops ⟨[], 0⟩ (fun _ => by simp [countKey]) e
  · intro st e
    exact lookupN_filter_ne e st.registry
  · intro st e c h
    simp [orchStep, h]

/-- C7 witness: repeated rebuilds and a dispose on entry 3 keep at most
one live context; disposing removes it; a rebuild with a live context
(id 0) leaves the registry unchanged. -/
theorem cl7_witness :
    countKey (orchRun [.rebuild 3, .rebuild 3, .dispose 3, .rebuild 3]).registry 3 ≤ 1 ∧
      lookupN (orchStep ⟨[(3, 0)], 1⟩ (.dispose 3)).registry 3 = none ∧
      orchStep ⟨[(3, 0)], 1⟩ (.rebuild 3) = ⟨[(3, 0)], 1⟩ :=
  ⟨cl7_at_most_one_context.1 [.rebuild 3, .rebuild 3, .dispose 3, .rebuild 3] 3,
    cl7_at_most_one_context.2.1 ⟨[(3, 0)], 1⟩ 3,
    cl7_at_most_one_context.2.2 ⟨[(3, 0)], 1⟩ 3 0 (by decide)⟩

/-! ### C10: upward search

Directories are lists of name components; the filesystem root is `[]`
(`isPathRoot`), `path.dirname` is `dropLast`, `path.join dir name` is
`dir ++ [name]`, and `safeFileExists` is the existence oracle `ex`. -/

/-- The recursive upward search `findUpEffect`: if any of the names
exists in the directory, succeed with the directory; at the filesystem
root, fail; otherwise recurse on the parent directory. -/
def findUpEffect (ex : FPath → Bool) (names : List Nat) (dir : FPath) : Option FPath :=
  if names.any (fun n => ex (dir ++ [n])) then some dir
  else if h : dir = [] then none
  else findUpEffect ex names dir.dropLast
termination_by dir.length
decreasing_by
  have hp : 0 < dir.length := List.length_pos.mpr h
  simp [List.length_dropLast]
  omega

/-- Step-indexed version of `findUpEffect`: `none` means the recursion
depth budget ran out before an answer was reached. -/
def findUpFuel (ex : FPath → Bool) (names : List Nat) : Nat → FPath → Option (Option FPath)
  | 0, _ => none
  | fuel + 1, dir =>
    if names.any (fun n => ex (dir ++ [n])) then some (some dir)
    else if dir = [] then some none
    else findUpFuel ex names fuel dir.dropLast

/-- The `findUp` helper: search one name upward; `none` models the
`undefined` produced by `orElseSucceed`. -/
def findUp (ex : FPath → Bool) (name : Nat) (dir : FPath) : Option FPath :=
  findUpEffect ex [name] dir

/-- The three lockfile names searched by `findProjectRoot`
(yarn.lock, pnpm-lock.yaml, package-lock.json), as numbers. -/
def lockfileNames : List Nat := [0, 1, 2]

/-- The `findProjectRoot` helper: forward a non-null `rootDir`
unchanged, otherwise search upward for a lockfile; `none` models the
`undefined` produced by `orElseSucceed`. -/
def findProjectRoot (ex : FPath → Bool) (rootDir : Option FPath) (cwd : FPath) :
    Option FPath :=
  match rootDir with
  | some r => some r
  | none => findUpEffect ex lockfileNames cwd

/-- All ancestor directories of `dir` (including `dir` itself and the
root `[]`). -/
def dirPrefixes (dir : FPath) : List FPath :=
  (List.range (dir.length + 1)).map (fun k => dir.take k)

theorem self_mem_dirPrefixes (dir : FPath) : dir ∈ dirPrefixes dir := by
  unfold dirPrefixes
  exact List.mem_map.mpr ⟨dir.length, List.mem_range.mpr (by omega), List.take_length dir⟩

theorem dirPrefixes_dropLast_subset (dir : FPath) :
    ∀ p ∈ dirPrefixes dir.dropLast, p ∈ dirPrefixes dir := by
  intro p hp
  obtain ⟨k, hk, hpk⟩ := List.mem_map.mp hp
  rw [List.mem_range] at hk
  rw [List.length_dropLast] at hk
  refine List.mem_map.mpr ⟨k, List.mem_range.mpr (by omega), ?_⟩
  rw [← hpk, List.dropLast_eq_take, List.take_take]
  have : min k (dir.length - 1) = k := Nat.min_eq_left (by omega)
  rw [this]

theorem findUpFuel_eq (ex : FPath → Bool) (names : List Nat) :
    ∀ (k : Nat) (dir : FPath), dir.length < k →
      findUpFuel ex names k dir = some (findUpEffect ex names dir) := by
  intro k
  induction k with
  | zero => intro dir h; exact absurd h (by omega)
  | succ k ih =>
    intro dir h
    rw [findUpFuel]
    unfold findUpEffect
    cases h1 : names.any (fun n => ex (dir ++ [n])) with
    | true => simp
    | false =>
      by_cases h2 : dir = []
      · simp [h2]
      · simp only [Bool.false_eq_true, if_false, h2, dite_false]
        refine ih dir.dropLast ?_
        rw [List.length_dropLast]
        have : 0 < dir.length := List.length_pos.mpr h2
        omega

theorem findUpEffect_none (ex : FPath → Bool) (names : List Nat) :
    ∀ (k : Nat) (dir : FPath), dir.length < k →
      (∀ p ∈ dirPrefixes dir, ∀ n ∈ names, ex (p ++ [n]) = false) →
      findUpEffect ex names dir = none := by
  intro k
  induction k with
  | zero => intro dir h; exact absurd h (by omega)
  | succ k ih =>
    intro dir h hnone
    have hany : names.any (fun n => ex (dir ++ [n])) = false := by
      rw [List.any_eq_false]
      intro n hn
      rw [hnone dir (self_mem_dirPrefixes dir) n hn]
      exact Bool.false_ne_true
    unfold findUpEffect
    rw [if_neg (by simp [hany])]
    by_cases h2 : dir = []
    · rw [dif_pos h2]
    · rw [dif_neg h2]
      refine ih dir.dropLast ?_ ?_
      · rw [List.length_dropLast]
        have : 0 < dir.length := List.length_pos.mpr h2
        omega
      · intro p hp n hn
        exact hnone p (dirPrefixes_dropLast_subset dir p hp) n hn

/-- C10: Upward-search termination and failure behaviour.  The
step-indexed search reaches `findUpEffect`'s answer within
`dir.length + 1` steps — each recursive step replaces the directory
with its parent and stops at the filesystem root, so the recursion
terminates from every starting directory.  When none of the searched
names exists in the directory or any of its ancestors, `findUpEffect`
returns `none`; hence `findProjectRoot` without a supplied root returns
`undefined` in that situation, `findUp` likewise, and `findProjectRoot`
forwards any supplied non-null `rootDir` unchanged. -/
theorem cl10_findup_termination (ex : FPath → Bool) :
    (∀ (names : List Nat) (dir : FPath),
        findUpFuel ex names (dir.length + 1) dir = some (findUpEffect ex names dir)) ∧
      (∀ (names : List Nat) (dir : FPath),
        (∀ p ∈ dirPrefixes dir, ∀ n ∈ names, ex (p ++ [n]) = false) →
        findUpEffect ex names dir = none) ∧
      (∀ (r cwd : FPath), findProjectRoot ex (some r) cwd = some r) ∧
      (∀ cwd : FPath,
        (∀ p ∈ dirPrefixes cwd, ∀ n ∈ lockfileNames, ex (p ++ [n]) = false) →
        findProjectRoot ex none cwd = none) ∧
      (∀ (name : Nat) (dir : FPath),
        (∀ p ∈ dirPrefixes dir, ex (p ++ [name]) = false) →
        findUp ex name dir = none) := by
  refine ⟨?_, ?_, ?_, ?_, ?_⟩
  · intro names dir
    exact findUpFuel_eq ex names (dir.length + 1) dir (by omega)
  · intro names dir hnone
    exact findUpEffect_none ex names (dir.length + 1) dir (by omega) hnone
  · intro r cwd
    rfl
  · intro cwd hnone
    exact findUpEffect_none ex lockfileNames (cwd.length + 1) cwd (by omega) hnone
  · intro name dir hnone
    refine findUpEffect_none ex [name] (dir.length + 1) dir (by omega) ?_
    intro p hp n hn
    rw [List.mem_singleton] at hn
    subst hn
    exact hnone p hp

/-- C10 witness: with an existence oracle that finds nothing, the
step-indexed search from directory `[4]` reaches its answer within two
steps, the search returns `none`, a supplied root is forwarded
unchanged, and both helpers return `undefined`. -/
theorem cl10_witness :
    findUpFuel (fun _ => false) [0] (([4] : FPath).length + 1) [4] =
        some (findUpEffect (fun _ => false) [0] [4]) ∧
      findUpEffect (fun _ => false) [0] [4] = none ∧
      findProjectRoot (fun _ => false) (some [8]) [4] = some [8] ∧
      findProjectRoot (fun _ => false) none [4] = none ∧
      findUp (fun _ => false) 0 [4] = none :=
  ⟨(cl10_findup_termination (fun _ => false)).1 [0] [4],
    (cl10_findup_termination (fun _ => false)).2.1 [0] [4] (by decide),
    (cl10_findup_termination (fun _ => false)).2.2.1 [8] [4],
    (cl10_findup_termination (fun _ => false)).2.2.2.1 [4] (by decide),
    (cl10_findup_termination (fun _ => false)).2.2.2.2 0 [4] (by decide)⟩

/-! ### C9: trimExtension

Entry strings are lists of characters. -/

/-- The basename of a path string: the characters after the last
path separator. -/
def basenameOf (s : List Char) : List Char :=
  (s.reverse.takeWhile (fun c => !(decide (c = '/')))).reverse

/-- Index of the last `'.'` in a string, if any. -/
def lastDotIdx (b : List Char) : Option Nat :=
  match b.reverse.findIdx? (fun c => decide (c = '.')) with
  | none => none
  | some j => some (b.length - 1 - j)

/-- Model of `path.extname`: the substring of the basename from its
last `'.'` to the end; empty when the basename has no dot, when its
only dot is its first character (dotfiles), or for the special basename
`".."`. -/
def extname (s : List Char) : List Char :=
  if basenameOf s = ['.', '.'] then []
  else
    match lastDotIdx (basenameOf s) with
    | none => []
    | some 0 => []
    | some i => (basenameOf s).drop i

/-- Model of `trimExtension`:
`entry.slice(0, -path.extname(entry).length)`.  When the extension is
empty, JavaScript's `slice(0, -0)` is `slice(0, 0)`, the empty string;
otherwise the extension's length is sliced off the end. -/
def trimExtension (s : List Char) : List Char :=
  if (extname s).length = 0 then []
  else s.take (s.length - (extname s).length)

example : extname ['a', '.', 'b'] = ['.', 'b'] := by decide
example : extname ['a', '/', 'b'] = [] := by decide
example : extname ['.', 'a'] = [] := by decide
example : trimExtension ['a', '.', 'b'] = ['a'] := by decide
example : trimExtension ['a', 'b'] = [] := by decide

theorem basenameOf_suffix (s : List Char) :
    (s.reverse.dropWhile (fun c => !(decide (c = '/')))).reverse ++ basenameOf s = s := by
  unfold basenameOf
  rw [← List.reverse_append, List.takeWhile_append_dropWhile, List.reverse_reverse]

theorem extname_cases (s : List Char) :
    extname s = [] ∨ ∃ i, extname s = (basenameOf s).drop i := by
  unfold extname
  split
  · exact Or.inl rfl
  · split
    · exact Or.inl rfl
    · exact Or.inl rfl
    · exact Or.inr ⟨_, rfl⟩

theorem extname_suffix (s : List Char) : ∃ t, t ++ extname s = s := by
  rcases extname_cases s with h | ⟨i, h⟩
  · exact ⟨s, by rw [h, List.append_nil]⟩
  · refine ⟨(s.reverse.dropWhile (fun c => !(decide (c = '/')))).reverse ++
      (basenameOf s).take i, ?_⟩
    rw [h, List.append_assoc, List.take_append_drop]
    exact basenameOf_suffix s

/-- C9: `trimExtension` behaviour.  For every entry string whose final
path extension is non-empty, `trimExtension` returns the entry with
that extension removed (the prefix whose concatenation with the
extension is the entry); for every entry string with no extension
(`path.extname` yields the empty string), `trimExtension` returns the
empty string — `slice(0, -0)` — rather than the unchanged entry. -/
theorem cl9_trimExtension (s : List Char) :
    (extname s ≠ [] → trimExtension s ++ extname s = s ∧
      trimExtension s = s.take (s.length - (extname s).length)) ∧
      (extname s = [] → trimExtension s = []) := by
  constructor
  · intro h
    obtain ⟨t, ht⟩ := extname_suffix s
    have hlen : ¬ (extname s).length = 0 := by
      intro hc
      exact h (List.length_eq_zero.mp hc)
    have hteq : s.take (s.length - (extname s).length) = t := by
      obtain ⟨e, he⟩ : ∃ e, extname s = e := ⟨_, rfl⟩
      rw [he] at ht ⊢
      rw [← ht, List.length_append, Nat.add_sub_cancel]
      exact List.take_left t e
    have htrim : trimExtension s = t := by
      unfold trimExtension
      rw [if_neg hlen]
      exact hteq
    exact ⟨by rw [htrim]; exact ht, by rw [htrim, hteq]⟩
  · intro h
    unfold trimExtension
    rw [if_pos (by rw [h]; rfl)]

/-- C9 witness: `"a.b"` has extension `".b"` and trims to `"a"` with the
extension removed; `"ab"` has no extension and trims to the empty
string. -/
theorem cl9_witness :
    (trimExtension ['a', '.', 'b'] ++ extname ['a', '.', 'b'] = ['a', '.', 'b'] ∧
      trimExtension ['a', '.', 'b'] =
        (['a', '.', 'b'] : List Char).take
          ((['a', '.', 'b'] : List Char).length - (extname ['a', '.', 'b']).length)) ∧
      trimExtension ['a', 'b'] = [] :=
  ⟨(cl9_trimExtension ['a', '.', 'b']).1 (by decide),
    (cl9_trimExtension ['a', 'b']).2 (by decide)⟩

